import Mathlib

/-!
Verification of the intraday-momentum backtest repository.

The Python source is shallowly embedded over ℚ: pandas NaN sentinels become
`Option ℚ`, data frames become lists, and the event-driven engine of
`src/backtester.py` becomes an explicit fold over per-session bar lists.
-/

namespace IMS

/-- Timestamp of an intraday bar; only the fields the engine inspects
(minute and second for decision gating) plus enough to identify the bar. -/
structure Ts where
  day : Nat
  hour : Nat
  minute : Nat
  second : Nat
deriving DecidableEq

/-- One prepared intraday bar as seen by `Backtester.run`: close price,
noise bands (NaN-able, `src/noise_area.py`) and session VWAP. -/
structure Bar where
  ts : Ts
  close : ℚ
  upper : Option ℚ
  lower : Option ℚ
  vwap : ℚ
deriving DecidableEq

/-- Configuration of the backtester, `BacktesterConfig` in `src/backtester.py`. -/
structure BtConfig where
  targetDailyVol : ℚ := 2 / 100
  maxLeverage : ℚ := 4
  commissionPerShare : ℚ := 35 / 10000
  slippagePerShare : ℚ := 1 / 1000
  initialCapital : ℚ := 100000
  decisionMinutes : List Nat := [0, 30]
deriving DecidableEq

/-- A closed trade record, `Trade` in `src/backtester.py`. -/
structure Trade where
  entryTime : Ts
  exitTime : Ts
  side : String
  shares : ℚ
  entryPrice : ℚ
  exitPrice : ℚ
  gross : ℚ
  costs : ℚ
  net : ℚ
  exitReason : String
deriving DecidableEq

/-- Mutable per-session state of `Backtester.run`: position sign, entry
price/time (None-able) and the day P&L accumulator, together with the
trades appended so far. -/
structure SessState where
  pos : Int
  entryPrice : Option ℚ
  entryTime : Option Ts
  dailyPnl : ℚ
  trades : List Trade
deriving DecidableEq

/-- `Backtester._close_trade`: gross, costs and net P&L of a round trip. -/
def closeTrade (cfg : BtConfig) (entryPrice exitPrice shares : ℚ) (side : String) :
    ℚ × ℚ × ℚ :=
  let perShareCost := (cfg.commissionPerShare + cfg.slippagePerShare) * 2
  let gross := if side = "LONG" then (exitPrice - entryPrice) * shares
               else (entryPrice - exitPrice) * shares
  let costs := perShareCost * shares
  (gross, costs, gross - costs)

/-- Close the open position at `price`/`ts` with the given reason: append a
`Trade`, add its net P&L to the day accumulator and reset the position,
exactly as the closing blocks of `Backtester.run` do.  The entry fields are
in the invariant never `none` when this is reached. -/
def mkClose (cfg : BtConfig) (shares : ℚ) (s : SessState) (price : ℚ) (ts : Ts)
    (reason : String) : SessState :=
  match s.entryPrice, s.entryTime with
  | some ep, some et =>
    let side := if s.pos > 0 then "LONG" else "SHORT"
    let r := closeTrade cfg ep price shares side
    { pos := 0, entryPrice := none, entryTime := none,
      dailyPnl := s.dailyPnl + r.2.2,
      trades := s.trades ++ [{ entryTime := et, exitTime := ts, side := side,
                               shares := shares, entryPrice := ep, exitPrice := price,
                               gross := r.1, costs := r.2.1, net := r.2.2,
                               exitReason := reason }] }
  | _, _ => s

/-- Open a position: set position sign and record entry price/time. -/
def openPos (s : SessState) (price : ℚ) (ts : Ts) (dir : Int) : SessState :=
  { s with pos := dir, entryPrice := some price, entryTime := some ts }

/-- Decision-time gate of `Backtester.run`:
`ts.minute in self.config.decision_minutes and ts.second == 0`. -/
def isDecision (cfg : BtConfig) (t : Ts) : Bool :=
  cfg.decisionMinutes.contains t.minute && t.second == 0

/-- Entry/flip logic of `Backtester.run` (lines 168–197), shared verbatim by
the engine step and the spec-side step: compute the desired position from
the bands, close a differing non-flat position (reverse/band_exit), then
open the desired non-flat position at the same price and timestamp. -/
def entryFlip (cfg : BtConfig) (shares : ℚ) (b : Bar) (upper lower : ℚ)
    (s1 : SessState) : SessState :=
  let price := b.close
  let desired : Int := if price > upper then 1 else if price < lower then -1 else 0
  if desired = s1.pos then s1
  else
    let s2 :=
      if s1.pos ≠ 0 then
        mkClose cfg shares s1 price b.ts (if desired ≠ 0 then "reverse" else "band_exit")
      else s1
    if desired ≠ 0 then openPos s2 price b.ts desired else s2

/-- One iteration of the per-bar loop of `Backtester.run` (lines 130–197):
skip bars with undefined bands, stop check at decision times, then
entry/flip logic at decision times. -/
def stepBar (cfg : BtConfig) (shares : ℚ) (s : SessState) (b : Bar) : SessState :=
  match b.upper, b.lower with
  | some upper, some lower =>
    let price := b.close
    let decisionTime := isDecision cfg b.ts
    let s1 :=
      if s.pos > 0 ∧ decisionTime then
        (if price ≤ max upper b.vwap then mkClose cfg shares s price b.ts "stop" else s)
      else if s.pos < 0 ∧ decisionTime then
        (if price ≥ min lower b.vwap then mkClose cfg shares s price b.ts "stop" else s)
      else s
    if ¬ decisionTime then s1
    else entryFlip cfg shares b upper lower s1
  | _, _ => s

/-- Initial per-session state: flat, no entry, zero day P&L, no trades. -/
def sessInit : SessState :=
  { pos := 0, entryPrice := none, entryTime := none, dailyPnl := 0, trades := [] }

/-- Walk one session's bars and then apply the end-of-day flatten of
`Backtester.run` (lines 199–206). -/
def runSession (cfg : BtConfig) (shares : ℚ) (bars : List Bar) : SessState :=
  let s := bars.foldl (stepBar cfg shares) sessInit
  match bars.getLast? with
  | some lastBar =>
    if s.pos ≠ 0 ∧ s.entryPrice.isSome then
      mkClose cfg shares s lastBar.close lastBar.ts "eod"
    else s
  | none => s

/-- `Backtester._calc_shares`: 0 for a missing (NaN) or non-positive prior-day
volatility estimate, else volatility-targeted share count. -/
def calcShares (cfg : BtConfig) (capital dayOpen : ℚ) (vol : Option ℚ) : ℚ :=
  match vol with
  | none => 0
  | some v =>
    if v ≤ 0 then 0
    else capital * min cfg.maxLeverage (cfg.targetDailyVol / v) / dayOpen

/-- One session's input to the engine: date, session open, the prior-day
volatility estimate looked up from the shifted daily series, and its bars. -/
structure Session where
  date : Nat
  dayOpen : ℚ
  volEst : Option ℚ
  bars : List Bar
deriving DecidableEq

/-- One row of the equity ledger of `Backtester.run`. -/
structure EquityRow where
  date : Nat
  equityStart : ℚ
  dailyPnl : ℚ
  equityEnd : ℚ
  volEst : Option ℚ
  shares : ℚ
deriving DecidableEq

/-- The session loop of `Backtester.run` (lines 102–218): skip empty
sessions, size once per session, skip the bar walk entirely when the share
count is zero, otherwise run the session and compound capital additively. -/
def runAll (cfg : BtConfig) (capital : ℚ) : List Session → List EquityRow × List Trade
  | [] => ([], [])
  | sess :: rest =>
    if sess.bars.isEmpty then runAll cfg capital rest
    else
      let shares := calcShares cfg capital sess.dayOpen sess.volEst
      if shares = 0 then
        let r := runAll cfg capital rest
        ({ date := sess.date, equityStart := capital, dailyPnl := 0,
           equityEnd := capital, volEst := sess.volEst, shares := shares } :: r.1, r.2)
      else
        let st := runSession cfg shares sess.bars
        let r := runAll cfg (capital + st.dailyPnl) rest
        ({ date := sess.date, equityStart := capital, dailyPnl := st.dailyPnl,
           equityEnd := capital + st.dailyPnl, volEst := sess.volEst,
           shares := shares } :: r.1, st.trades ++ r.2)

/-- `Backtester.run` started at the configured initial capital. -/
def btRun (cfg : BtConfig) (sessions : List Session) : List EquityRow × List Trade :=
  runAll cfg cfg.initialCapital sessions

/-- Modelled from the spec (§4.4): the per-bar transition at a decision bar
with defined bands `upper`/`lower`, in the spec's precedence order — stop
check first, then desired-position computation, then close/open. -/
def specStep (cfg : BtConfig) (shares : ℚ) (s : SessState) (b : Bar)
    (upper lower : ℚ) : SessState :=
  let s1 :=
    if s.pos > 0 ∧ b.close ≤ max upper b.vwap then mkClose cfg shares s b.close b.ts "stop"
    else if s.pos < 0 ∧ b.close ≥ min lower b.vwap then mkClose cfg shares s b.close b.ts "stop"
    else s
  entryFlip cfg shares b upper lower s1

/-- C1: at every decision bar with defined noise bounds, the engine's
per-bar transition equals the spec's precedence order: stop check first
(LONG closes with reason stop exactly when price ≤ max(upper, vwap), SHORT
exactly when price ≥ min(lower, vwap)), then the desired position is
computed from the bands and, when it differs from the current one, a
non-flat current position is closed (reverse/band_exit) before the desired
non-flat position is opened at the same price and timestamp; equal desired
and current positions change nothing. -/
theorem C1_decision_bar_precedence (cfg : BtConfig) (shares : ℚ) (s : SessState)
    (b : Bar) (u lo : ℚ) (hu : b.upper = some u) (hl : b.lower = some lo)
    (hd : isDecision cfg b.ts = true) :
    stepBar cfg shares s b = specStep cfg shares s b u lo := by
  obtain ⟨ts, close, upper, lower, vwap⟩ := b
  simp only [Bar.upper, Bar.lower] at hu hl
  subst hu hl
  simp only [Bar.ts] at hd
  simp only [stepBar, specStep, hd, not_true, if_false, and_true]
  congr 1
  by_cases h1 : s.pos > 0
  · have h2 : ¬ s.pos < 0 := by omega
    by_cases h3 : close ≤ max u vwap <;> simp [h1, h2, h3]
  · by_cases h2 : s.pos < 0
    · by_cases h3 : close ≥ min lo vwap <;> simp [h1, h2, h3]
    · simp [h1, h2]

/-- Concrete bar used for the C1 witness: a decision-time bar (minute 30)
with both bands defined. -/
def c1Bar : Bar :=
  { ts := ⟨0, 10, 30, 0⟩, close := 12, upper := some 10, lower := some 5, vwap := 8 }

/-- Witness for C1 at a concrete decision bar. -/
theorem C1_decision_bar_precedence_witness :
    stepBar {} 100 sessInit c1Bar = specStep {} 100 sessInit c1Bar 10 5 :=
  C1_decision_bar_precedence {} 100 sessInit c1Bar 10 5 rfl rfl (by decide)

/-- Open LONG state used for the C6 counterexample. -/
def c6State : SessState :=
  { pos := 1, entryPrice := some 100, entryTime := some ⟨0, 10, 0, 0⟩,
    dailyPnl := 0, trades := [] }

/-- Non-decision bar (minute 15 under the default decision minutes {0, 30})
with defined bands whose close is below the LONG stop level. -/
def c6Bar : Bar :=
  { ts := ⟨0, 10, 15, 0⟩, close := 99, upper := some 101, lower := some 95, vwap := 100 }

/-- Counterexample to C6: at a non-decision bar with defined noise bounds,
an open LONG position and price at or below max(upper, vwap), the engine
does nothing at all — the position stays open and no stop trade is emitted,
contradicting the claim that stop checks apply at every bar. -/
theorem C6_counterexample :
    isDecision {} c6Bar.ts = false ∧
    (c6Bar.upper = some 101 ∧ c6Bar.lower = some 95) ∧
    c6State.pos = 1 ∧ c6Bar.close ≤ max 101 c6Bar.vwap ∧
    stepBar {} 100 c6State c6Bar = c6State := by decide

/-- C6 amended: the engine evaluates stop conditions, like entries, only at
decision-mark bars; at any bar whose timestamp is not on a configured
decision mark the per-bar transition leaves the state entirely unchanged
(no stop check, no trade). -/
theorem C6_amended_stops_only_at_decision_bars (cfg : BtConfig) (shares : ℚ)
    (s : SessState) (b : Bar) (hd : isDecision cfg b.ts = false) :
    stepBar cfg shares s b = s := by
  obtain ⟨ts, close, upper, lower, vwap⟩ := b
  simp only [Bar.ts] at hd
  cases upper <;> cases lower <;> simp [stepBar, hd]

/-- Witness for the amended C6 at a concrete non-decision bar. -/
theorem C6_amended_stops_only_at_decision_bars_witness :
    stepBar {} 100 c6State c6Bar = c6State :=
  C6_amended_stops_only_at_decision_bars {} 100 c6State c6Bar (by decide)

/-- Engine state invariant: a non-flat position always carries entry
price/time, and the day P&L accumulator equals the sum of the net P&L of
the trades recorded so far. -/
def stateInv (s : SessState) : Prop :=
  (s.pos ≠ 0 → s.entryPrice.isSome ∧ s.entryTime.isSome) ∧
  s.dailyPnl = (s.trades.map Trade.net).sum

/-- No trade recorded so far carries the end-of-day exit reason. -/
def eodFree (s : SessState) : Prop :=
  ∀ t ∈ s.trades, t.exitReason ≠ "eod"

theorem stateInv_mkClose (cfg : BtConfig) (shares price : ℚ) (ts : Ts)
    (reason : String) {s : SessState} (h : stateInv s) :
    stateInv (mkClose cfg shares s price ts reason) := by
  unfold mkClose
  cases hp : s.entryPrice <;> cases ht : s.entryTime <;> try exact h
  refine ⟨fun hpos => absurd rfl hpos, ?_⟩
  simp [List.map_append, List.sum_append, h.2]

theorem eodFree_mkClose (cfg : BtConfig) (shares price : ℚ) (ts : Ts)
    {reason : String} {s : SessState} (h : eodFree s) (hr : reason ≠ "eod") :
    eodFree (mkClose cfg shares s price ts reason) := by
  unfold mkClose
  cases hp : s.entryPrice <;> cases ht : s.entryTime <;> try exact h
  intro t htr
  rcases List.mem_append.mp htr with h1 | h1
  · exact h t h1
  · rcases List.mem_singleton.mp h1 with rfl
    exact hr

theorem stateInv_openPos {s : SessState} (p : ℚ) (ts : Ts) (d : Int)
    (h : s.dailyPnl = (s.trades.map Trade.net).sum) :
    stateInv (openPos s p ts d) :=
  ⟨fun _ => by simp [openPos], by simpa [openPos] using h⟩

theorem eodFree_openPos {s : SessState} (p : ℚ) (ts : Ts) (d : Int)
    (h : eodFree s) : eodFree (openPos s p ts d) := h

theorem stateInv_entryFlip (cfg : BtConfig) (shares : ℚ) (b : Bar) (u lo : ℚ)
    {s1 : SessState} (h : stateInv s1) :
    stateInv (entryFlip cfg shares b u lo s1) := by
  simp only [entryFlip]
  split_ifs <;>
    first
      | exact h
      | exact stateInv_mkClose _ _ _ _ _ h
      | exact stateInv_openPos _ _ _ h.2
      | exact stateInv_openPos _ _ _ (stateInv_mkClose _ _ _ _ _ h).2

theorem eodFree_entryFlip (cfg : BtConfig) (shares : ℚ) (b : Bar) (u lo : ℚ)
    {s1 : SessState} (h : eodFree s1) :
    eodFree (entryFlip cfg shares b u lo s1) := by
  simp only [entryFlip]
  split_ifs <;>
    first
      | exact h
      | exact eodFree_mkClose _ _ _ _ h (by decide)
      | exact eodFree_openPos _ _ _ h
      | exact eodFree_openPos _ _ _ (eodFree_mkClose _ _ _ _ h (by decide))

theorem stateInv_stepBar (cfg : BtConfig) (shares : ℚ) {s : SessState} (b : Bar)
    (h : stateInv s) : stateInv (stepBar cfg shares s b) := by
  obtain ⟨ts, close, upper, lower, vwap⟩ := b
  cases upper <;> cases lower <;> simp only [stepBar] <;> try exact h
  split_ifs <;>
    first
      | exact h
      | exact stateInv_mkClose _ _ _ _ _ h
      | exact stateInv_entryFlip _ _ _ _ _ h
      | exact stateInv_entryFlip _ _ _ _ _ (stateInv_mkClose _ _ _ _ _ h)

theorem eodFree_stepBar (cfg : BtConfig) (shares : ℚ) {s : SessState} (b : Bar)
    (h : eodFree s) : eodFree (stepBar cfg shares s b) := by
  obtain ⟨ts, close, upper, lower, vwap⟩ := b
  cases upper <;> cases lower <;> simp only [stepBar] <;> try exact h
  split_ifs <;>
    first
      | exact h
      | exact eodFree_mkClose _ _ _ _ h (by simp)
      | exact eodFree_entryFlip _ _ _ _ _ h
      | exact eodFree_entryFlip _ _ _ _ _ (eodFree_mkClose _ _ _ _ h (by simp))

theorem stateInv_foldl (cfg : BtConfig) (shares : ℚ) (bars : List Bar)
    {s : SessState} (h : stateInv s) :
    stateInv (bars.foldl (stepBar cfg shares) s) := by
  induction bars generalizing s with
  | nil => exact h
  | cons b rest ih => exact ih (stateInv_stepBar cfg shares b h)

theorem eodFree_foldl (cfg : BtConfig) (shares : ℚ) (bars : List Bar)
    {s : SessState} (h : eodFree s) :
    eodFree (bars.foldl (stepBar cfg shares) s) := by
  induction bars generalizing s with
  | nil => exact h
  | cons b rest ih => exact ih (eodFree_stepBar cfg shares b h)

theorem stateInv_sessInit : stateInv sessInit :=
  ⟨fun h => absurd rfl h, rfl⟩

theorem eodFree_sessInit : eodFree sessInit := by
  intro t ht; exact absurd ht (List.not_mem_nil t)

/-- C2: whenever the position is still non-flat after the last bar of a
session is processed, the session emits exactly one trade with exit reason
eod, it is the last trade of the session, its exit price is the session's
last bar close and its exit time that bar's timestamp; and every session's
walk begins from the flat initial state. -/
theorem C2_eod_flatten (cfg : BtConfig) (shares : ℚ) (bars : List Bar)
    (h : bars ≠ [])
    (hp : (bars.foldl (stepBar cfg shares) sessInit).pos ≠ 0) :
    (runSession cfg shares bars).trades.countP (fun t => t.exitReason == "eod") = 1 ∧
    ((runSession cfg shares bars).trades.getLast?).map Trade.exitReason = some "eod" ∧
    ((runSession cfg shares bars).trades.getLast?).map Trade.exitPrice
      = some ((bars.getLast h).close) ∧
    ((runSession cfg shares bars).trades.getLast?).map Trade.exitTime
      = some ((bars.getLast h).ts) ∧
    sessInit.pos = 0 := by
  have hinv := stateInv_foldl cfg shares bars stateInv_sessInit
  have hfree := eodFree_foldl cfg shares bars eodFree_sessInit
  set s := bars.foldl (stepBar cfg shares) sessInit with hs
  obtain ⟨hsome, _⟩ := hinv
  obtain ⟨hpe, hte⟩ := hsome hp
  obtain ⟨ep, hep⟩ := Option.isSome_iff_exists.mp hpe
  obtain ⟨et, het⟩ := Option.isSome_iff_exists.mp hte
  have hrun : runSession cfg shares bars
      = mkClose cfg shares s (bars.getLast h).close (bars.getLast h).ts "eod" := by
    unfold runSession
    rw [← hs, List.getLast?_eq_getLast bars h]
    simp [hp, hpe]
  have hzero : (s.trades.countP (fun t => t.exitReason == "eod")) = 0 := by
    rw [List.countP_eq_zero]
    intro t ht
    simpa using hfree t ht
  rw [hrun]
  unfold mkClose
  rw [hep, het]
  refine ⟨?_, ?_, ?_, ?_, rfl⟩
  · simp [List.countP_append, hzero]
  · simp [List.getLast?_concat]
  · simp [List.getLast?_concat]
  · simp [List.getLast?_concat]

/-- Single-bar session used for the C2 witness: a decision bar whose close
breaks above the band, so the engine opens a LONG that survives to the end
of the session. -/
def c2Bars : List Bar :=
  [{ ts := ⟨0, 10, 30, 0⟩, close := 12, upper := some 10, lower := some 5, vwap := 8 }]

/-- Witness for C2 on a concrete one-bar session that ends non-flat. -/
theorem C2_eod_flatten_witness :
    (runSession {} 100 c2Bars).trades.countP (fun t => t.exitReason == "eod") = 1 ∧
    ((runSession {} 100 c2Bars).trades.getLast?).map Trade.exitReason = some "eod" ∧
    ((runSession {} 100 c2Bars).trades.getLast?).map Trade.exitPrice
      = some ((c2Bars.getLast (by decide)).close) ∧
    ((runSession {} 100 c2Bars).trades.getLast?).map Trade.exitTime
      = some ((c2Bars.getLast (by decide)).ts) ∧
    sessInit.pos = 0 :=
  C2_eod_flatten {} 100 c2Bars (by decide) (by decide)

/-- Equity-row bookkeeping of the session loop, generalized over the
running capital: every row closes additively, consecutive rows chain
exactly, and the first row starts at the running capital. -/
theorem runAll_rows_spec (cfg : BtConfig) (ss : List Session) (capital : ℚ) :
    (∀ r ∈ (runAll cfg capital ss).1, r.equityEnd = r.equityStart + r.dailyPnl) ∧
    List.Chain' (fun a b => b.equityStart = a.equityEnd) (runAll cfg capital ss).1 ∧
    (∀ r, (runAll cfg capital ss).1.head? = some r → r.equityStart = capital) := by
  induction ss generalizing capital with
  | nil => simp [runAll]
  | cons sess rest ih =>
    by_cases he : sess.bars.isEmpty
    · simpa [runAll, he] using ih capital
    · by_cases hz : calcShares cfg capital sess.dayOpen sess.volEst = 0
      · obtain ⟨ih1, ih2, ih3⟩ := ih capital
        simp only [runAll, he, hz, if_true, if_false, Bool.false_eq_true]
        refine ⟨?_, ?_, ?_⟩
        · intro r hr
          rcases List.mem_cons.mp hr with rfl | hr
          · simp
          · exact ih1 r hr
        · refine List.chain'_cons'.mpr ⟨?_, ih2⟩
          intro y hy
          simpa using ih3 y hy
        · intro r hr
          simp only [List.head?_cons, Option.some_inj] at hr
          subst hr
          rfl
      · obtain ⟨ih1, ih2, ih3⟩ :=
          ih (capital + (runSession cfg (calcShares cfg capital sess.dayOpen sess.volEst)
                sess.bars).dailyPnl)
        simp only [runAll, he, hz, if_true, if_false, Bool.false_eq_true]
        refine ⟨?_, ?_, ?_⟩
        · intro r hr
          rcases List.mem_cons.mp hr with rfl | hr
          · simp
          · exact ih1 r hr
        · refine List.chain'_cons'.mpr ⟨?_, ih2⟩
          intro y hy
          simpa using ih3 y hy
        · intro r hr
          simp only [List.head?_cons, Option.some_inj] at hr
          subst hr
          rfl

/-- The day P&L accumulator of a finished session equals the sum of the
net P&L of the trades that session emitted. -/
theorem runSession_pnl_sum (cfg : BtConfig) (shares : ℚ) (bars : List Bar) :
    (runSession cfg shares bars).dailyPnl
      = ((runSession cfg shares bars).trades.map Trade.net).sum := by
  have hinv := stateInv_foldl cfg shares bars stateInv_sessInit
  cases hl : bars.getLast? with
  | none => simpa [runSession, hl] using hinv.2
  | some lastBar =>
    simp only [runSession, hl]
    split_ifs with hc
    · exact (stateInv_mkClose _ _ _ _ _ hinv).2
    · exact hinv.2

/-- C3: in every backtest run each equity row satisfies
equity_end = equity_start + daily_pnl with daily_pnl the sum of the net
P&L of the trades closed in that session, consecutive rows chain with
equity_start[i+1] = equity_end[i] exactly, and the first row starts at the
configured initial capital. -/
theorem C3_equity_chaining (cfg : BtConfig) (ss : List Session) :
    (∀ r ∈ (btRun cfg ss).1, r.equityEnd = r.equityStart + r.dailyPnl) ∧
    List.Chain' (fun a b => b.equityStart = a.equityEnd) (btRun cfg ss).1 ∧
    (∀ r, (btRun cfg ss).1.head? = some r → r.equityStart = cfg.initialCapital) ∧
    (∀ (shares : ℚ) (bars : List Bar),
       (runSession cfg shares bars).dailyPnl
         = ((runSession cfg shares bars).trades.map Trade.net).sum) := by
  obtain ⟨h1, h2, h3⟩ := runAll_rows_spec cfg ss cfg.initialCapital
  exact ⟨h1, h2, h3, fun shares bars => runSession_pnl_sum cfg shares bars⟩

/-- One-session run (missing volatility estimate, so a zero-P&L row) used
to witness C3 on concrete data. -/
def c3Sessions : List Session :=
  [{ date := 1, dayOpen := 100, volEst := none, bars := c2Bars }]

/-- The equity row the C3 witness run produces. -/
def c3Row : EquityRow :=
  { date := 1, equityStart := 100000, dailyPnl := 0, equityEnd := 100000,
    volEst := none, shares := 0 }

/-- Witness for C3 on a concrete one-session run. -/
theorem C3_equity_chaining_witness :
    (c3Row.equityEnd = c3Row.equityStart + c3Row.dailyPnl) ∧
    (c3Row.equityStart = ({} : BtConfig).initialCapital) ∧
    ((runSession {} 100 c2Bars).dailyPnl
      = ((runSession {} 100 c2Bars).trades.map Trade.net).sum) :=
  ⟨(C3_equity_chaining {} c3Sessions).1 c3Row (by decide),
   (C3_equity_chaining {} c3Sessions).2.2.1 c3Row (by decide),
   (C3_equity_chaining {} c3Sessions).2.2.2 100 c2Bars⟩

/-- C5: the position sizer returns exactly 0 shares on a missing, zero or
negative prior-day volatility estimate and the volatility-targeted,
leverage-capped share count otherwise; and a session whose share count is
0 contributes an equity row with zero daily P&L and equity_end =
equity_start while the bar walk is skipped entirely (the run's trades are
exactly those of the remaining sessions). -/
theorem C5_zero_vol_sizing (cfg : BtConfig) :
    (∀ cap op : ℚ, calcShares cfg cap op none = 0) ∧
    (∀ cap op v : ℚ, v ≤ 0 → calcShares cfg cap op (some v) = 0) ∧
    (∀ cap op v : ℚ, 0 < v →
       calcShares cfg cap op (some v)
         = cap * min cfg.maxLeverage (cfg.targetDailyVol / v) / op) ∧
    (∀ (cap : ℚ) (sess : Session) (rest : List Session),
       sess.bars.isEmpty = false →
       calcShares cfg cap sess.dayOpen sess.volEst = 0 →
       runAll cfg cap (sess :: rest)
         = ({ date := sess.date, equityStart := cap, dailyPnl := 0, equityEnd := cap,
              volEst := sess.volEst, shares := 0 } :: (runAll cfg cap rest).1,
            (runAll cfg cap rest).2)) := by
  refine ⟨fun cap op => rfl, ?_, ?_, ?_⟩
  · intro cap op v hv
    simp [calcShares, hv]
  · intro cap op v hv
    simp [calcShares, not_le.mpr hv]
  · intro cap sess rest he hz
    simp [runAll, he, hz]

/-- Witness for C5: all four parts instantiated on concrete inputs. -/
theorem C5_zero_vol_sizing_witness :
    calcShares {} 100000 100 none = 0 ∧
    calcShares {} 100000 100 (some (-1/100)) = 0 ∧
    calcShares {} 100000 100 (some (1/100))
      = 100000 * min ({} : BtConfig).maxLeverage
          (({} : BtConfig).targetDailyVol / (1/100)) / 100 ∧
    runAll {} 100000 c3Sessions
      = ({ date := 1, equityStart := 100000, dailyPnl := 0, equityEnd := 100000,
           volEst := none, shares := 0 } :: (runAll {} 100000 []).1,
         (runAll {} 100000 []).2) :=
  ⟨(C5_zero_vol_sizing {}).1 100000 100,
   (C5_zero_vol_sizing {}).2.1 100000 100 (-1/100) (by norm_num),
   (C5_zero_vol_sizing {}).2.2.1 100000 100 (1/100) (by norm_num),
   (C5_zero_vol_sizing {}).2.2.2 100000
     { date := 1, dayOpen := 100, volEst := none, bars := c2Bars } [] (by decide) (by decide)⟩

/-- Per-session, per-time-of-day absolute move from the session open,
`df["move"] = (df["close"] / df["session_open"] - 1.0).abs()` in
`compute_time_of_day_sigma`. -/
def move (close sessionOpen : ℚ) : ℚ := |close / sessionOpen - 1|

/-- One pivot column of `compute_time_of_day_sigma` under
`rolling(window=N, min_periods=N).mean()`: the entry at row `i` is defined
only when the window of the `N` rows ending at `i` exists and every entry
in it is defined, and is then their mean. -/
def rollingMeanAt (N : Nat) (l : List (Option ℚ)) (i : Nat) : Option ℚ :=
  let w := (l.take (i + 1)).drop (i + 1 - N)
  if w.length = N ∧ w.all Option.isSome then
    some ((w.map (fun o => o.getD 0)).sum / N)
  else none

/-- sigma for session `i`: the rolling mean shifted down by one session
(`.shift(1)` in `compute_time_of_day_sigma`), so only strictly prior
sessions contribute. -/
def sigmaAt (N : Nat) (l : List (Option ℚ)) (i : Nat) : Option ℚ :=
  if i = 0 then none else rollingMeanAt N l (i - 1)

/-- Previous-session close for session `i`,
`session_close.shift()` mapped back onto bars in `compute_noise_bands`. -/
def prevCloseAt (closes : List ℚ) (i : Nat) : Option ℚ :=
  if i = 0 then none else closes[i - 1]?

/-- Gap-adjusted upper band of `compute_noise_bands`; `np.maximum` and the
arithmetic both propagate NaN, so the band is defined only when both the
previous close and sigma are. -/
def bandUpper (vm sessionOpen : ℚ) (prevClose sigma : Option ℚ) : Option ℚ :=
  match prevClose, sigma with
  | some pc, some s => some (max sessionOpen pc * (1 + vm * s))
  | _, _ => none

/-- Gap-adjusted lower band of `compute_noise_bands`. -/
def bandLower (vm sessionOpen : ℚ) (prevClose sigma : Option ℚ) : Option ℚ :=
  match prevClose, sigma with
  | some pc, some s => some (min sessionOpen pc * (1 - vm * s))
  | _, _ => none

/-- C4: sigma at a time bucket for session i is defined exactly when the N
sessions strictly preceding i all have that bucket, and is then the mean of
their absolute moves |close / session_open - 1| (never including session i
itself); it is undefined while fewer than N prior sessions carry the
bucket; the bands are max/min(session_open, prev_close) scaled by
(1 ± VM·sigma) and are undefined whenever the previous session close is
missing — in particular for every bar of the first session. -/
theorem C4_sigma_and_bands (N : Nat) (hN : 0 < N)
    (data : List (Option (ℚ × ℚ))) (moves : List (Option ℚ))
    (hm : moves = data.map (Option.map (fun p => move p.1 p.2))) :
    (∀ i m, i ≤ data.length →
      (sigmaAt N moves i = some m ↔
        N ≤ i ∧ ((moves.take i).drop (i - N)).all Option.isSome = true ∧
          m = (((moves.take i).drop (i - N)).map (fun o => o.getD 0)).sum / N)) ∧
    (∀ i, (moves.take i).countP Option.isSome < N → sigmaAt N moves i = none) ∧
    (∀ vm o pc s, bandUpper vm o (some pc) (some s) = some (max o pc * (1 + vm * s)) ∧
                  bandLower vm o (some pc) (some s) = some (min o pc * (1 - vm * s))) ∧
    (∀ vm o s closes, bandUpper vm o (prevCloseAt closes 0) s = none ∧
                      bandLower vm o (prevCloseAt closes 0) s = none) := by
  have hlen : moves.length = data.length := by rw [hm, List.length_map]
  refine ⟨?_, ?_, ?_, ?_⟩
  · intro i m hi
    cases i with
    | zero =>
      simp only [sigmaAt, if_pos rfl]
      constructor
      · intro h; exact absurd h (by simp)
      · rintro ⟨h, -, -⟩; omega
    | succ j =>
      have hil : j + 1 ≤ moves.length := by omega
      unfold sigmaAt
      rw [if_neg (Nat.succ_ne_zero j)]
      simp only [rollingMeanAt, Nat.add_sub_cancel]
      have hw : ((moves.take (j + 1)).drop (j + 1 - N)).length = min N (j + 1) := by
        rw [List.length_drop, List.length_take]
        omega
      by_cases hcond : ((moves.take (j + 1)).drop (j + 1 - N)).length = N ∧
          ((moves.take (j + 1)).drop (j + 1 - N)).all Option.isSome = true
      · rw [if_pos hcond]
        obtain ⟨hlw, hall⟩ := hcond
        constructor
        · intro h
          exact ⟨by omega, hall, (Option.some_inj.mp h).symm⟩
        · rintro ⟨hNi, hall2, rfl⟩
          rfl
      · rw [if_neg hcond]
        constructor
        · intro h
          exact absurd h (by simp)
        · rintro ⟨hNi, hall, rfl⟩
          exact absurd ⟨by omega, hall⟩ hcond
  · intro i hcount
    cases hs : sigmaAt N moves i with
    | none => rfl
    | some m =>
      exfalso
      cases i with
      | zero => simp [sigmaAt] at hs
      | succ j =>
        unfold sigmaAt at hs
        rw [if_neg (Nat.succ_ne_zero j)] at hs
        simp only [rollingMeanAt, Nat.add_sub_cancel] at hs
        by_cases hcond : ((moves.take (j + 1)).drop (j + 1 - N)).length = N ∧
            ((moves.take (j + 1)).drop (j + 1 - N)).all Option.isSome = true
        · obtain ⟨hlw, hall⟩ := hcond
          have hsub : (moves.take (j + 1)).take (j + 1 - N)
              ++ (moves.take (j + 1)).drop (j + 1 - N) = moves.take (j + 1) :=
            List.take_append_drop _ _
          have hcw : ((moves.take (j + 1)).drop (j + 1 - N)).countP Option.isSome = N := by
            rw [List.countP_eq_length.mpr, hlw]
            intro a ha
            exact List.all_eq_true.mp hall a ha
          have : N ≤ (moves.take (j + 1)).countP Option.isSome := by
            calc N = ((moves.take (j + 1)).drop (j + 1 - N)).countP Option.isSome :=
                  hcw.symm
            _ ≤ ((moves.take (j + 1)).take (j + 1 - N)).countP Option.isSome
                  + ((moves.take (j + 1)).drop (j + 1 - N)).countP Option.isSome := by
                  omega
            _ = (moves.take (j + 1)).countP Option.isSome := by
                  rw [← List.countP_append, hsub]
          omega
        · rw [if_neg hcond] at hs
          exact absurd hs (by simp)
  · intro vm o pc s
    exact ⟨rfl, rfl⟩
  · intro vm o s closes
    exact ⟨rfl, rfl⟩

/-- Concrete per-session data for the C4 witness: three sessions, all with
the 10:00 bucket, closes 101/102/103 over a session open of 100. -/
def c4Data : List (Option (ℚ × ℚ)) :=
  [some (101, 100), some (102, 100), some (103, 100)]

/-- The moves derived from `c4Data`. -/
def c4Moves : List (Option ℚ) := c4Data.map (Option.map (fun p => move p.1 p.2))

/-- Witness for C4 with lookback N = 2: sigma for session 2 is the mean of
the first two sessions' moves, sigma for session 1 is undefined (only one
prior session), and the band shapes at concrete values. -/
theorem C4_sigma_and_bands_witness :
    sigmaAt 2 c4Moves 2 = some (3 / 200) ∧
    sigmaAt 2 c4Moves 1 = none ∧
    bandUpper 1 100 (some 102) (some (1 / 100)) = some (max 100 102 * (1 + 1 * (1 / 100))) ∧
    bandUpper 1 100 (prevCloseAt [101] 0) (some (1 / 100)) = none :=
  ⟨((C4_sigma_and_bands 2 (by norm_num) c4Data c4Moves rfl).1 2 (3 / 200)
      (by norm_num [c4Data])).mpr
      ⟨by norm_num, by simp [c4Moves, c4Data],
       by
        have h1 : |(1 : ℚ) / 100| = 1 / 100 := abs_of_nonneg (by norm_num)
        have h2 : |(1 : ℚ) / 50| = 1 / 50 := abs_of_nonneg (by norm_num)
        norm_num [c4Moves, c4Data, move, h1, h2]⟩,
   (C4_sigma_and_bands 2 (by norm_num) c4Data c4Moves rfl).2.1 1 (by decide),
   ((C4_sigma_and_bands 2 (by norm_num) c4Data c4Moves rfl).2.2.1 1 100 102 (1 / 100)).1,
   ((C4_sigma_and_bands 2 (by norm_num) c4Data c4Moves rfl).2.2.2 1 100 (some (1 / 100))
      [101]).1⟩

/-- One raw intraday bar as consumed by `intraday_vwap` in `src/vwap.py`:
session tag (`index.date`), close and volume. -/
structure VBar where
  sess : Nat
  close : ℚ
  volume : ℚ
deriving DecidableEq

/-- The per-session groupby cumulative sums of `intraday_vwap`: the
accumulator maps each session key to its (cum price·volume, cum volume)
so far, exactly as `groupby(session).cumsum()` accumulates per key;
vwap = cum_pv / cum_vol, missing when the cumulative volume is zero
(0/0 is NaN for the non-negative volumes of the data model). -/
def vwapGo (acc : Nat → ℚ × ℚ) : List VBar → List (Option ℚ)
  | [] => []
  | b :: rest =>
    let pv := (acc b.sess).1 + b.close * b.volume
    let cv := (acc b.sess).2 + b.volume
    let w : Option ℚ := if cv = 0 then none else some (pv / cv)
    w :: vwapGo (fun k => if k = b.sess then (pv, cv) else acc k) rest

/-- `intraday_vwap`: running VWAP per session over the whole bar list. -/
def intradayVwap (bars : List VBar) : List (Option ℚ) :=
  vwapGo (fun _ => (0, 0)) bars

/-- Sum of price·volume over the bars of `l` belonging to session `k`. -/
def sessPV (l : List VBar) (k : Nat) : ℚ :=
  ((l.filter (fun b => b.sess == k)).map (fun b => b.close * b.volume)).sum

/-- Sum of volume over the bars of `l` belonging to session `k`. -/
def sessVol (l : List VBar) (k : Nat) : ℚ :=
  ((l.filter (fun b => b.sess == k)).map VBar.volume).sum

theorem sessPV_cons (b : VBar) (l : List VBar) (k : Nat) :
    sessPV (b :: l) k = (if b.sess = k then b.close * b.volume else 0) + sessPV l k := by
  unfold sessPV
  by_cases h : b.sess = k
  · simp [List.filter_cons, h]
  · simp [List.filter_cons, h]

theorem sessVol_cons (b : VBar) (l : List VBar) (k : Nat) :
    sessVol (b :: l) k = (if b.sess = k then b.volume else 0) + sessVol l k := by
  unfold sessVol
  by_cases h : b.sess = k
  · simp [List.filter_cons, h]
  · simp [List.filter_cons, h]

/-- Generalized characterisation of the groupby-cumsum fold: the entry at
index `i` divides the accumulator-plus-prefix sums of bar `i`'s session. -/
theorem vwapGo_getD (bars : List VBar) (acc : Nat → ℚ × ℚ) (i : Nat)
    (h : i < bars.length) :
    (vwapGo acc bars).getD i none =
      (if (acc (bars.getD i ⟨0, 0, 0⟩).sess).2
            + sessVol (bars.take (i + 1)) (bars.getD i ⟨0, 0, 0⟩).sess = 0 then none
       else some (((acc (bars.getD i ⟨0, 0, 0⟩).sess).1
            + sessPV (bars.take (i + 1)) (bars.getD i ⟨0, 0, 0⟩).sess)
          / ((acc (bars.getD i ⟨0, 0, 0⟩).sess).2
            + sessVol (bars.take (i + 1)) (bars.getD i ⟨0, 0, 0⟩).sess))) := by
  induction bars generalizing acc i with
  | nil => exact absurd h (by simp)
  | cons b rest ih =>
    cases i with
    | zero =>
      simp only [vwapGo, List.getD_cons_zero, List.take_succ_cons, List.take_zero]
      simp [sessPV, sessVol, List.filter_cons]
    | succ i =>
      have hlen : i < rest.length := by simpa using h
      simp only [vwapGo, List.getD_cons_succ, List.take_succ_cons, List.getD_cons_succ]
      rw [ih (fun k => if k = b.sess then
            ((acc b.sess).1 + b.close * b.volume, (acc b.sess).2 + b.volume)
          else acc k) i hlen]
      set k := (rest.getD i ⟨0, 0, 0⟩).sess with hk
      rw [sessPV_cons, sessVol_cons]
      by_cases hbk : b.sess = k
      · simp only [hbk, eq_self_iff_true, if_true]
        have e1 : (acc k).1 + (b.close * b.volume + sessPV (rest.take (i + 1)) k)
            = (acc k).1 + b.close * b.volume + sessPV (rest.take (i + 1)) k := by ring
        have e2 : (acc k).2 + (b.volume + sessVol (rest.take (i + 1)) k)
            = (acc k).2 + b.volume + sessVol (rest.take (i + 1)) k := by ring
        rw [e1, e2]
      · have hkb : ¬ k = b.sess := fun hc => hbk hc.symm
        simp only [if_neg hbk, if_neg hkb, zero_add]

/-- The fold preserves length. -/
theorem vwapGo_length (acc : Nat → ℚ × ℚ) (bars : List VBar) :
    (vwapGo acc bars).length = bars.length := by
  induction bars generalizing acc with
  | nil => rfl
  | cons b rest ih => simp [vwapGo, ih]

/-- C7: the VWAP at bar i equals the sum of close·volume over the bars of
bar i's session up to and including i divided by the sum of volume over
those same bars (so no other session's bars ever contribute), it is
missing exactly when that cumulative volume is zero, and recomputation
from the same input gives the identical output (pure deterministic fold of
the same length as the input). -/
theorem C7_vwap_per_session (bars : List VBar) :
    (∀ i, i < bars.length →
      (intradayVwap bars).getD i none =
        (if sessVol (bars.take (i + 1)) (bars.getD i ⟨0, 0, 0⟩).sess = 0 then none
         else some (sessPV (bars.take (i + 1)) (bars.getD i ⟨0, 0, 0⟩).sess
            / sessVol (bars.take (i + 1)) (bars.getD i ⟨0, 0, 0⟩).sess))) ∧
    intradayVwap bars = intradayVwap bars ∧
    (intradayVwap bars).length = bars.length := by
  refine ⟨?_, rfl, vwapGo_length _ bars⟩
  intro i hi
  have := vwapGo_getD bars (fun _ => (0, 0)) i hi
  simpa using this

/-- Concrete bars for the C7 witness: the two-session example of §8 of the
spec (sessions 0 and 1, two bars each). -/
def c7Bars : List VBar :=
  [⟨0, 100, 100⟩, ⟨0, 102, 200⟩, ⟨1, 103, 100⟩, ⟨1, 104, 300⟩]

/-- Witness for C7 at the final bar of session 1: the VWAP is session 1's
own cumulative ratio 103.75, uninfluenced by session 0. -/
theorem C7_vwap_per_session_witness :
    (intradayVwap c7Bars).getD 3 none =
      (if sessVol (c7Bars.take 4) (c7Bars.getD 3 ⟨0, 0, 0⟩).sess = 0 then none
       else some (sessPV (c7Bars.take 4) (c7Bars.getD 3 ⟨0, 0, 0⟩).sess
          / sessVol (c7Bars.take 4) (c7Bars.getD 3 ⟨0, 0, 0⟩).sess)) :=
  (C7_vwap_per_session c7Bars).1 3 (by decide)

/-- One enriched bar as consumed by
`IntradayMomentumStrategy.generate_signals` in `src/strategy.py`: close,
momentum, rolling volatility and the noise band, all NaN-able. -/
structure SBar where
  close : ℚ
  momentum : Option ℚ
  volatility : Option ℚ
  lower : Option ℚ
  upper : Option ℚ
deriving DecidableEq

/-- `_apply_threshold`: start from 0, set +1 where momentum > threshold,
then set −1 where momentum < −threshold (the later assignment wins on
overlap); comparisons against NaN are false. -/
def applyThreshold (m t : Option ℚ) : ℚ :=
  match m, t with
  | some mv, some tv => if mv < -tv then -1 else if mv > tv then 1 else 0
  | _, _ => 0

/-- `features["in_noise"] = close.between(lower, upper)`: inclusive on both
ends, false when either band is NaN. -/
def inNoise (close : ℚ) (lower upper : Option ℚ) : Bool :=
  match lower, upper with
  | some lo, some up => decide (lo ≤ close) && decide (close ≤ up)
  | _, _ => false

/-- Per-bar raw signal of `generate_signals`:
`raw_signals.where(~in_noise, 0.0)` over the thresholded momentum with
threshold = volatility × volatility_multiple. -/
def rawSignal (mult : ℚ) (b : SBar) : ℚ :=
  if inNoise b.close b.lower b.upper then 0
  else applyThreshold b.momentum (b.volatility.map (fun v => v * mult))

/-- Raw signal series of `generate_signals`. -/
def rawSignals (mult : ℚ) (bars : List SBar) : List ℚ :=
  bars.map (rawSignal mult)

/-- `raw_signals.replace(0, nan).ffill(limit=hold).fillna(0)` as a scan:
`last` carries the most recent non-zero signal and how many bars ago it
occurred; a zero bar is filled with it only while that age stays within
the hold limit. -/
def posGo (hold : Nat) : Option (ℚ × Nat) → List ℚ → List ℚ
  | _, [] => []
  | last, r :: rest =>
    if r ≠ 0 then r :: posGo hold (some (r, 0)) rest
    else
      match last with
      | some (v, age) =>
        (if age + 1 ≤ hold then v else 0) :: posGo hold (some (v, age + 1)) rest
      | none => 0 :: posGo hold none rest

/-- `positions.clip(lower=-max_position, upper=max_position)`. -/
def clipQ (m x : ℚ) : ℚ := min (max x (-m)) m

/-- The held-position series of `generate_signals`. -/
def positionsOf (mult m : ℚ) (hold : Nat) (bars : List SBar) : List ℚ :=
  (posGo hold none (rawSignals mult bars)).map (clipQ m)

/-- Modelled from the spec (§4.3): walking back from bar i (most recent
first), the value held is the most recent non-zero signal if it lies at
most `hold` bars back, and 0 once the hold horizon has elapsed without a
new non-zero signal. -/
def lastHeld : List ℚ → Nat → ℚ
  | [], _ => 0
  | x :: rest, hold =>
    if x ≠ 0 then x
    else match hold with
      | 0 => 0
      | h + 1 => lastHeld rest h

/-- The spec-side held value at index i: `lastHeld` over the reversed
prefix ending at i. -/
def heldSpec (hold : Nat) (l : List ℚ) (i : Nat) : ℚ :=
  lastHeld ((l.take (i + 1)).reverse) hold

theorem lastHeld_cons_ne (hold : Nat) (x : ℚ) (rest : List ℚ) (hx : x ≠ 0) :
    lastHeld (x :: rest) hold = x := by
  simp [lastHeld, hx]

theorem lastHeld_cons_zero_succ (h : Nat) (x : ℚ) (rest : List ℚ) (hx : x = 0) :
    lastHeld (x :: rest) (h + 1) = lastHeld rest h := by
  simp [lastHeld, hx]

theorem lastHeld_cons_zero_zero (x : ℚ) (rest : List ℚ) (hx : x = 0) :
    lastHeld (x :: rest) 0 = 0 := by
  simp [lastHeld, hx]

theorem lastHeld_all_zero (xs : List ℚ) (hold : Nat) (hz : ∀ x ∈ xs, x = 0) :
    lastHeld xs hold = 0 := by
  induction xs generalizing hold with
  | nil => rfl
  | cons x rest ih =>
    have hx : x = 0 := hz x (by simp)
    cases hold with
    | zero => exact lastHeld_cons_zero_zero x rest hx
    | succ h =>
      rw [lastHeld_cons_zero_succ h x rest hx]
      exact ih h (fun y hy => hz y (List.mem_cons_of_mem _ hy))

theorem lastHeld_append_of_ex (xs ys : List ℚ) (hold : Nat)
    (hnz : ∃ x ∈ xs, x ≠ 0) :
    lastHeld (xs ++ ys) hold = lastHeld xs hold := by
  induction xs generalizing hold with
  | nil =>
    obtain ⟨x, hx, -⟩ := hnz
    exact absurd hx (List.not_mem_nil x)
  | cons x rest ih =>
    by_cases hx : x = 0
    · obtain ⟨y, hy, hyne⟩ := hnz
      have hyr : y ∈ rest := by
        rcases List.mem_cons.mp hy with rfl | hyr
        · exact absurd hx hyne
        · exact hyr
      cases hold with
      | zero =>
        rw [List.cons_append, lastHeld_cons_zero_zero x _ hx,
          lastHeld_cons_zero_zero x rest hx]
      | succ h =>
        rw [List.cons_append, lastHeld_cons_zero_succ h x _ hx,
          lastHeld_cons_zero_succ h x rest hx]
        exact ih h ⟨y, hyr, hyne⟩
    · rw [List.cons_append, lastHeld_cons_ne hold x _ hx, lastHeld_cons_ne hold x rest hx]

theorem lastHeld_append_zero (xs : List ℚ) (r : ℚ) (hold : Nat) (hr : r ≠ 0)
    (hz : ∀ x ∈ xs, x = 0) :
    lastHeld (xs ++ [r]) hold = if xs.length ≤ hold then r else 0 := by
  induction xs generalizing hold with
  | nil =>
    simp [lastHeld_cons_ne hold r [] hr]
  | cons x rest ih =>
    have hx : x = 0 := hz x (by simp)
    cases hold with
    | zero =>
      rw [List.cons_append, lastHeld_cons_zero_zero x _ hx]
      simp
    | succ h =>
      rw [List.cons_append, lastHeld_cons_zero_succ h x _ hx,
        ih h (fun y hy => hz y (List.mem_cons_of_mem _ hy))]
      simp [Nat.succ_le_succ_iff]

theorem posGo_length (hold : Nat) (last : Option (ℚ × Nat)) (l : List ℚ) :
    (posGo hold last l).length = l.length := by
  induction l generalizing last with
  | nil => rfl
  | cons r rest ih =>
    by_cases hr : r ≠ 0
    · simp [posGo, hr, ih]
    · cases last with
      | none => simp [posGo, hr, ih]
      | some va =>
        obtain ⟨v, a⟩ := va
        simp [posGo, hr, ih]

theorem getD_map_clip (m : ℚ) (l : List ℚ) (i : Nat) (h : i < l.length) :
    (l.map (clipQ m)).getD i 0 = clipQ m (l.getD i 0) := by
  induction l generalizing i with
  | nil => exact absurd h (by simp)
  | cons x rest ih =>
    cases i with
    | zero => rfl
    | succ i => exact ih i (by simpa using h)

/-- A non-zero element of the prefix survives into its reversal. -/
theorem exists_ne_of_not_all_zero (l : List ℚ)
    (hall : ¬ (l.all (fun x => x == 0)) = true) :
    ∃ y ∈ l.reverse, y ≠ 0 := by
  by_contra hc
  push_neg at hc
  refine hall (List.all_eq_true.mpr (fun y hy => ?_))
  have := hc y (List.mem_reverse.mpr hy)
  simpa using this

/-- Characterisation of the fill scan against the spec-side walk-back,
generalized over the carried last-non-zero state. -/
theorem posGo_getD (hold : Nat) (l : List ℚ) (last : Option (ℚ × Nat)) (i : Nat)
    (h : i < l.length) :
    (posGo hold last l).getD i 0 =
      if (l.take (i + 1)).all (fun x => x == 0) then
        (match last with
         | some (v, a) => if a + 1 + i ≤ hold then v else 0
         | none => 0)
      else lastHeld ((l.take (i + 1)).reverse) hold := by
  induction l generalizing last i with
  | nil => exact absurd h (by simp)
  | cons r rest ih =>
    cases i with
    | zero =>
      by_cases hr : r = 0
      · subst hr
        cases last with
        | none => simp [posGo, lastHeld]
        | some va =>
          obtain ⟨v, a⟩ := va
          simp [posGo, lastHeld]
      · cases last with
        | none => simp [posGo, lastHeld, hr]
        | some va =>
          obtain ⟨v, a⟩ := va
          simp [posGo, lastHeld, hr]
    | succ i =>
      have hlen : i < rest.length := by simpa using h
      by_cases hr : r = 0
      · subst hr
        have hcons : ∀ o : Option (ℚ × Nat),
            ((0 :: rest.take (i + 1)).all (fun x => x == 0))
              = ((rest.take (i + 1)).all (fun x => x == 0)) := by
          intro o
          simp
        by_cases hall : ((rest.take (i + 1)).all (fun x => x == 0)) = true
        · -- whole prefix is zero: the carried state decides the value
          cases last with
          | none =>
            have hstep : (posGo hold none (0 :: rest)).getD (i + 1) 0
                = (posGo hold none rest).getD i 0 := by
              simp [posGo]
            rw [hstep, ih none i hlen, if_pos hall, List.take_succ_cons,
              if_pos (by simpa using hall)]
          | some va =>
            obtain ⟨v, a⟩ := va
            have hstep : (posGo hold (some (v, a)) (0 :: rest)).getD (i + 1) 0
                = (posGo hold (some (v, a + 1)) rest).getD i 0 := by
              simp [posGo]
            rw [hstep, ih (some (v, a + 1)) i hlen, if_pos hall, List.take_succ_cons,
              if_pos (by simpa using hall)]
            have hcond : a + 1 + 1 + i = a + 1 + (i + 1) := by omega
            simp only [hcond]
        · -- the prefix already contains a non-zero signal
          obtain ⟨y, hy, hyne⟩ := exists_ne_of_not_all_zero _ hall
          have hall2 : ¬ ((0 :: rest.take (i + 1)).all (fun x => x == 0)) = true := by
            simpa using hall
          have htail : lastHeld ((0 :: rest.take (i + 1)).reverse) hold
              = lastHeld ((rest.take (i + 1)).reverse) hold := by
            rw [List.reverse_cons]
            exact lastHeld_append_of_ex _ _ hold ⟨y, hy, hyne⟩
          cases last with
          | none =>
            have hstep : (posGo hold none (0 :: rest)).getD (i + 1) 0
                = (posGo hold none rest).getD i 0 := by
              simp [posGo]
            rw [hstep, ih none i hlen, if_neg hall, List.take_succ_cons,
              if_neg hall2, htail]
          | some va =>
            obtain ⟨v, a⟩ := va
            have hstep : (posGo hold (some (v, a)) (0 :: rest)).getD (i + 1) 0
                = (posGo hold (some (v, a + 1)) rest).getD i 0 := by
              simp [posGo]
            rw [hstep, ih (some (v, a + 1)) i hlen, if_neg hall, List.take_succ_cons,
              if_neg hall2, htail]
      · have hstep : (posGo hold last (r :: rest)).getD (i + 1) 0
            = (posGo hold (some (r, 0)) rest).getD i 0 := by
          simp [posGo, hr]
        have hall2 : ¬ ((r :: rest.take (i + 1)).all (fun x => x == 0)) = true := by
          simp [hr]
        rw [hstep, ih (some (r, 0)) i hlen, List.take_succ_cons, if_neg hall2,
          List.reverse_cons]
        by_cases hall : ((rest.take (i + 1)).all (fun x => x == 0)) = true
        · rw [if_pos hall]
          have hz : ∀ x ∈ (rest.take (i + 1)).reverse, x = 0 := by
            intro x hx
            have := List.all_eq_true.mp hall x (List.mem_reverse.mp hx)
            simpa using this
          rw [lastHeld_append_zero _ r hold hr hz]
          have hlr : ((rest.take (i + 1)).reverse).length = i + 1 := by
            rw [List.length_reverse, List.length_take]
            omega
          rw [hlr]
          have hcond : 0 + 1 + i = i + 1 := by omega
          simp only [hcond]
        · rw [if_neg hall]
          obtain ⟨y, hy, hyne⟩ := exists_ne_of_not_all_zero _ hall
          rw [lastHeld_append_of_ex _ _ hold ⟨y, hy, hyne⟩]

/-- C8: the raw signal is +1/−1/0 by momentum against the
volatility-scaled threshold, any bar whose close lies inside the
(inclusive) noise band is forced to 0 regardless of momentum, and the held
position at bar i is the last non-zero signal carried forward for at most
`hold` bars (0 once the horizon elapses), clipped to
[−max_position, max_position]. -/
theorem C8_signals_and_positions (mult m : ℚ) (hold : Nat) (bars : List SBar) :
    (∀ (b : SBar) (mv tv : ℚ), b.momentum = some mv → b.volatility = some tv →
       0 ≤ tv * mult →
       rawSignal mult b =
         if inNoise b.close b.lower b.upper then 0
         else if mv > tv * mult then 1
         else if mv < -(tv * mult) then -1 else 0) ∧
    (∀ (b : SBar) (lo up : ℚ), b.lower = some lo → b.upper = some up →
       lo ≤ b.close → b.close ≤ up → rawSignal mult b = 0) ∧
    (∀ i, i < bars.length →
       (positionsOf mult m hold bars).getD i 0
         = clipQ m (heldSpec hold (rawSignals mult bars) i)) := by
  refine ⟨?_, ?_, ?_⟩
  · intro b mv tv hm hv ht
    unfold rawSignal
    rw [hm, hv]
    simp only [Option.map_some']
    by_cases hn : inNoise b.close b.lower b.upper
    · simp [hn]
    · simp only [hn, Bool.false_eq_true, if_false, applyThreshold]
      split_ifs <;> first | rfl | linarith
  · intro b lo up hlo hup h1 h2
    have hn : inNoise b.close b.lower b.upper = true := by
      rw [hlo, hup]
      simp [inNoise, h1, h2]
    simp [rawSignal, hn]
  · intro i hi
    have hlenr : (rawSignals mult bars).length = bars.length :=
      List.length_map _ _
    unfold positionsOf
    rw [getD_map_clip m _ i (by rw [posGo_length, hlenr]; exact hi)]
    rw [posGo_getD hold _ none i (by rw [hlenr]; exact hi)]
    by_cases hall : ((rawSignals mult bars).take (i + 1)).all (fun x => x == 0) = true
    · rw [if_pos hall]
      unfold heldSpec
      rw [lastHeld_all_zero _ hold (fun y hy => by
        simpa using List.all_eq_true.mp hall y (List.mem_reverse.mp hy))]
    · rw [if_neg hall]
      rfl

/-- Concrete bars for the C8 witness: a breakout bar (momentum 5 over
threshold 1, no band), then an in-noise bar. -/
def w8a : SBar := { close := 100, momentum := some 5, volatility := some 1,
                    lower := none, upper := none }

/-- In-noise bar used for the C8 witness. -/
def w8b : SBar := { close := 100, momentum := some 5, volatility := some 1,
                    lower := some 90, upper := some 110 }

/-- Witness for C8: the threshold rule at `w8a`, the noise override at
`w8b`, and the held position of the series [w8a, w8b] at bar 1 (carry of
the +1 signal within hold = 1). -/
theorem C8_signals_and_positions_witness :
    (rawSignal 1 w8a =
      if inNoise w8a.close w8a.lower w8a.upper then 0
      else if (5 : ℚ) > 1 * 1 then 1
      else if (5 : ℚ) < -(1 * 1) then -1 else 0) ∧
    rawSignal 1 w8b = 0 ∧
    (positionsOf 1 1 1 [w8a, w8b]).getD 1 0
      = clipQ 1 (heldSpec 1 (rawSignals 1 [w8a, w8b]) 1) :=
  ⟨(C8_signals_and_positions 1 1 1 [w8a, w8b]).1 w8a 5 1 rfl rfl (by norm_num),
   (C8_signals_and_positions 1 1 1 [w8a, w8b]).2.1 w8b 90 110 rfl rfl
     (by norm_num [w8b]) (by norm_num [w8b]),
   (C8_signals_and_positions 1 1 1 [w8a, w8b]).2.2 1 (by decide)⟩

/-- Running maximum continuation: the accumulator is the maximum seen so
far. -/
def runningMaxGo (m : ℚ) : List ℚ → List ℚ
  | [] => []
  | x :: rest => max m x :: runningMaxGo (max m x) rest

/-- `equity_curve.cummax()` in `max_drawdown` (src/analytics.py). -/
def runningMax : List ℚ → List ℚ
  | [] => []
  | x :: rest => x :: runningMaxGo x rest

/-- `drawdown = equity_curve / running_max - 1`. -/
def drawdowns (l : List ℚ) : List ℚ :=
  List.zipWith (fun e mx => e / mx - 1) l (runningMax l)

/-- `max_drawdown`: the minimum of the drawdown series (missing on an
empty curve). -/
def maxDrawdown (l : List ℚ) : Option ℚ := (drawdowns l).min?

theorem foldl_min_le_init (a : ℚ) (l : List ℚ) : l.foldl min a ≤ a := by
  induction l generalizing a with
  | nil => exact le_refl a
  | cons x rest ih => exact le_trans (ih (min a x)) (min_le_left a x)

theorem foldl_min_le_mem (a b : ℚ) (l : List ℚ) (hb : b ∈ l) :
    l.foldl min a ≤ b := by
  induction l generalizing a with
  | nil => exact absurd hb (List.not_mem_nil b)
  | cons x rest ih =>
    rcases List.mem_cons.mp hb with rfl | hb2
    · exact le_trans (foldl_min_le_init (min a b) rest) (min_le_right a b)
    · exact ih (min a x) hb2

theorem dd_go_nonpos (m : ℚ) (l : List ℚ) (hm : 0 < m) (hl : ∀ x ∈ l, 0 < x) :
    ∀ x ∈ List.zipWith (fun e mx => e / mx - 1) l (runningMaxGo m l), x ≤ 0 := by
  induction l generalizing m with
  | nil => simp [runningMaxGo]
  | cons e rest ih =>
    intro x hx
    have he : 0 < e := hl e (by simp)
    have hmax : 0 < max m e := lt_max_of_lt_right he
    simp only [runningMaxGo, List.zipWith_cons_cons] at hx
    rcases List.mem_cons.mp hx with rfl | hx2
    · have : e / max m e ≤ 1 := (div_le_one hmax).mpr (le_max_right m e)
      linarith
    · exact ih (max m e) hmax (fun y hy => hl y (List.mem_cons_of_mem _ hy)) x hx2

theorem dd_go_zero_chain (m : ℚ) (l : List ℚ) (hm : 0 < m) (hl : ∀ x ∈ l, 0 < x)
    (hdd : ∀ x ∈ List.zipWith (fun e mx => e / mx - 1) l (runningMaxGo m l), x = 0) :
    (∀ y ∈ l.head?, m ≤ y) ∧ List.Chain' (· ≤ ·) l := by
  induction l generalizing m with
  | nil => exact ⟨by simp, List.chain'_nil⟩
  | cons e rest ih =>
    have he : 0 < e := hl e (by simp)
    have hmax : 0 < max m e := lt_max_of_lt_right he
    have hhead : e / max m e - 1 = 0 := by
      refine hdd _ ?_
      simp [runningMaxGo, List.zipWith_cons_cons]
    have hne : max m e ≠ 0 := ne_of_gt hmax
    have h1 : e / max m e = 1 := by linarith
    have hme : max m e = e := by
      have h2 : e / max m e * max m e = 1 * max m e := by rw [h1]
      rw [div_mul_cancel₀ _ hne, one_mul] at h2
      exact h2.symm
    have hm_le : m ≤ e := hme ▸ le_max_left m e
    obtain ⟨ihh, ihc⟩ := ih (max m e) hmax
      (fun y hy => hl y (List.mem_cons_of_mem _ hy))
      (fun x hx => hdd x (by
        simp only [runningMaxGo, List.zipWith_cons_cons]
        exact List.mem_cons_of_mem _ hx))
    refine ⟨by simpa using hm_le, List.chain'_cons'.mpr ⟨?_, ihc⟩⟩
    intro y hy
    have := ihh y hy
    calc e = max m e := hme.symm
    _ ≤ y := this

/-- Counterexample to C9: on the non-empty (all-negative) equity curve
[-1, -2] the code's max drawdown is exactly 0 while the curve is strictly
decreasing, so "max_drawdown = 0 only if the curve is non-decreasing"
fails as stated for arbitrary equity curves. -/
theorem C9_counterexample :
    maxDrawdown [(-1 : ℚ), -2] = some 0 ∧
    ¬ List.Chain' (· ≤ ·) [(-1 : ℚ), -2] := by
  constructor
  · show (drawdowns [(-1 : ℚ), -2]).min? = some 0
    norm_num [drawdowns, runningMax, runningMaxGo, maxDrawdown, List.min?]
  · intro hc
    have := List.chain'_cons.mp hc
    linarith [this.1]

/-- C9 amended: for a non-empty equity curve of strictly positive values,
max drawdown is defined, is ≤ 0, and equals 0 only if the curve is
non-decreasing throughout.  (The positivity hypothesis is what the
counterexample forces: for non-positive curves the division by the running
maximum flips sign and the zero-drawdown ⇒ non-decreasing direction is
false.) -/
theorem C9_amended_max_drawdown (l : List ℚ) (h : l ≠ [])
    (hpos : ∀ x ∈ l, 0 < x) :
    (maxDrawdown l).isSome = true ∧
    ∀ d, maxDrawdown l = some d → d ≤ 0 ∧ (d = 0 → List.Chain' (· ≤ ·) l) := by
  obtain ⟨x, rest, rfl⟩ := List.exists_cons_of_ne_nil h
  have hx : 0 < x := hpos x (by simp)
  have hdd : drawdowns (x :: rest)
      = (0 : ℚ) :: List.zipWith (fun e mx => e / mx - 1) rest (runningMaxGo x rest) := by
    simp only [drawdowns, runningMax, List.zipWith_cons_cons]
    rw [div_self (ne_of_gt hx)]
    norm_num
  constructor
  · rw [maxDrawdown, hdd]
    rfl
  · intro d hd
    rw [maxDrawdown, hdd] at hd
    have hfold : (List.zipWith (fun e mx => e / mx - 1) rest
        (runningMaxGo x rest)).foldl min 0 = d := by
      simpa [List.min?] using hd
    have hrest_pos : ∀ y ∈ rest, 0 < y := fun y hy => hpos y (List.mem_cons_of_mem _ hy)
    constructor
    · rw [← hfold]
      exact foldl_min_le_init 0 _
    · intro hd0
      have hzero : ∀ y ∈ List.zipWith (fun e mx => e / mx - 1) rest
          (runningMaxGo x rest), y = 0 := by
        intro y hy
        have h1 : y ≤ 0 := dd_go_nonpos x rest hx hrest_pos y hy
        have h2 : d ≤ y := by
          rw [← hfold]
          exact foldl_min_le_mem 0 y _ hy
        rw [hd0] at h2
        linarith
      obtain ⟨hh, hc⟩ := dd_go_zero_chain x rest hx hrest_pos hzero
      exact List.chain'_cons'.mpr ⟨fun y hy => le_trans (le_refl x) (hh y hy), hc⟩

/-- Witness for the amended C9 on the increasing positive curve [1, 2]. -/
theorem C9_amended_max_drawdown_witness :
    (maxDrawdown [(1 : ℚ), 2]).isSome = true ∧
    ∀ d, maxDrawdown [(1 : ℚ), 2] = some d →
      d ≤ 0 ∧ (d = 0 → List.Chain' (· ≤ ·) [(1 : ℚ), 2]) :=
  C9_amended_max_drawdown [1, 2] (by decide) (by
    intro x hx
    rcases List.mem_cons.mp hx with rfl | hx2
    · norm_num
    · rcases List.mem_cons.mp hx2 with rfl | hx3
      · norm_num
      · exact absurd hx3 (List.not_mem_nil x))

/-- Configuration of the fractional-exposure simulator, `PortfolioConfig`
in `src/portfolio.py`. -/
structure PortCfg where
  initialCapital : ℚ := 100000
  transactionCostBps : ℚ := 1 / 2
deriving DecidableEq

/-- Continuation of `pct_change`: each entry divides by the previous
price. -/
def pctChangeGo (prev : ℚ) : List ℚ → List ℚ
  | [] => []
  | p :: rest => (p / prev - 1) :: pctChangeGo p rest

/-- `prices["close"].pct_change().fillna(0.0)`: the first return is 0. -/
def returnsOf : List ℚ → List ℚ
  | [] => []
  | p :: rest => 0 :: pctChangeGo p rest

/-- Continuation of `pos.diff().abs()`. -/
def turnoverGo (prev : ℚ) : List ℚ → List ℚ
  | [] => []
  | p :: rest => |p - prev| :: turnoverGo p rest

/-- `pos.diff().abs().fillna(pos.abs())`: the first turnover is the
absolute initial position. -/
def turnoverOf : List ℚ → List ℚ
  | [] => []
  | p :: rest => |p| :: turnoverGo p rest

/-- `pos.shift().fillna(0.0)`: positions delayed by one bar. -/
def shifted : List ℚ → List ℚ
  | [] => []
  | p :: rest => 0 :: (p :: rest).dropLast

/-- `strategy_return = pos.shift().fillna(0.0) * returns`. -/
def strategyReturns (prices positions : List ℚ) : List ℚ :=
  List.zipWith (· * ·) (shifted positions) (returnsOf prices)

/-- `trading_cost = turnover * (transaction_cost_bps / 10_000)`. -/
def tradingCosts (cfg : PortCfg) (positions : List ℚ) : List ℚ :=
  (turnoverOf positions).map (fun t => t * (cfg.transactionCostBps / 10000))

/-- `net_return = strategy_return - trading_cost`. -/
def netReturns (cfg : PortCfg) (prices positions : List ℚ) : List ℚ :=
  List.zipWith (· - ·) (strategyReturns prices positions) (tradingCosts cfg positions)

/-- `equity = (1 + net_return).cumprod() * initial_capital` as a running
product. -/
def equityGo (acc : ℚ) : List ℚ → List ℚ
  | [] => []
  | r :: rest => acc * (1 + r) :: equityGo (acc * (1 + r)) rest

/-- The equity curve of `Portfolio.simulate`. -/
def equityOf (cfg : PortCfg) (prices positions : List ℚ) : List ℚ :=
  equityGo cfg.initialCapital (netReturns cfg prices positions)

theorem getD_map (g : ℚ → ℚ) (l : List ℚ) (i : Nat) (h : i < l.length) :
    (l.map g).getD i 0 = g (l.getD i 0) := by
  induction l generalizing i with
  | nil => exact absurd h (by simp)
  | cons x rest ih =>
    cases i with
    | zero => rfl
    | succ i => exact ih i (by simpa using h)

theorem getD_zipWith (f : ℚ → ℚ → ℚ) (l1 l2 : List ℚ) (i : Nat)
    (h1 : i < l1.length) (h2 : i < l2.length) :
    (List.zipWith f l1 l2).getD i 0 = f (l1.getD i 0) (l2.getD i 0) := by
  induction l1 generalizing l2 i with
  | nil => exact absurd h1 (by simp)
  | cons x rest ih =>
    cases l2 with
    | nil => exact absurd h2 (by simp)
    | cons y rest2 =>
      cases i with
      | zero => rfl
      | succ i => exact ih rest2 i (by simpa using h1) (by simpa using h2)

theorem pctChangeGo_getD (prev : ℚ) (l : List ℚ) (i : Nat) (h : i < l.length) :
    (pctChangeGo prev l).getD i 0 = l.getD i 0 / (prev :: l).getD i 0 - 1 := by
  induction l generalizing prev i with
  | nil => exact absurd h (by simp)
  | cons p rest ih =>
    cases i with
    | zero => rfl
    | succ i => exact ih p i (by simpa using h)

theorem turnoverGo_getD (prev : ℚ) (l : List ℚ) (i : Nat) (h : i < l.length) :
    (turnoverGo prev l).getD i 0 = |l.getD i 0 - (prev :: l).getD i 0| := by
  induction l generalizing prev i with
  | nil => exact absurd h (by simp)
  | cons p rest ih =>
    cases i with
    | zero => rfl
    | succ i => exact ih p i (by simpa using h)

theorem getD_dropLast (l : List ℚ) (i : Nat) (h : i + 1 < l.length) :
    l.dropLast.getD i 0 = l.getD i 0 := by
  induction l generalizing i with
  | nil => exact absurd h (by simp)
  | cons x rest ih =>
    cases rest with
    | nil => simp at h
    | cons y rest2 =>
      cases i with
      | zero => rfl
      | succ i => exact ih i (by simpa using h)

theorem pctChangeGo_length (prev : ℚ) (l : List ℚ) :
    (pctChangeGo prev l).length = l.length := by
  induction l generalizing prev with
  | nil => rfl
  | cons p rest ih => simp [pctChangeGo, ih]

theorem returnsOf_length (l : List ℚ) : (returnsOf l).length = l.length := by
  cases l with
  | nil => rfl
  | cons p rest => simp [returnsOf, pctChangeGo_length]

theorem turnoverGo_length (prev : ℚ) (l : List ℚ) :
    (turnoverGo prev l).length = l.length := by
  induction l generalizing prev with
  | nil => rfl
  | cons p rest ih => simp [turnoverGo, ih]

theorem turnoverOf_length (l : List ℚ) : (turnoverOf l).length = l.length := by
  cases l with
  | nil => rfl
  | cons p rest => simp [turnoverOf, turnoverGo_length]

theorem shifted_length (l : List ℚ) : (shifted l).length = l.length := by
  cases l with
  | nil => rfl
  | cons p rest => simp [shifted]

theorem equityGo_getD (acc : ℚ) (l : List ℚ) (i : Nat) (h : i < l.length) :
    (equityGo acc l).getD i 0
      = acc * ((l.take (i + 1)).map (fun r => 1 + r)).prod := by
  induction l generalizing acc i with
  | nil => exact absurd h (by simp)
  | cons r rest ih =>
    cases i with
    | zero => simp [equityGo]
    | succ i =>
      have := ih (acc * (1 + r)) i (by simpa using h)
      simp only [equityGo, List.getD_cons_succ, List.take_succ_cons, List.map_cons,
        List.prod_cons, this]
      ring

/-- C10: `Portfolio.simulate` applies positions with a one-bar lag — the
strategy return at bar t is position[t−1] times the close-to-close return
at bar t (and the first bar's strategy return is 0) — charges the
transaction cost at bar t on |position[t] − position[t−1]| with the first
bar charged on the initial entry |position[0]|, and compounds equity
multiplicatively from initial capital over the net returns. -/
theorem C10_one_bar_lag (cfg : PortCfg) (prices positions : List ℚ) :
    (prices ≠ [] → positions ≠ [] →
      (strategyReturns prices positions).getD 0 0 = 0) ∧
    (∀ i, i + 1 < prices.length → i + 1 < positions.length →
      (strategyReturns prices positions).getD (i + 1) 0
        = positions.getD i 0 * (prices.getD (i + 1) 0 / prices.getD i 0 - 1)) ∧
    (positions ≠ [] →
      (tradingCosts cfg positions).getD 0 0
        = |positions.getD 0 0| * (cfg.transactionCostBps / 10000)) ∧
    (∀ i, i + 1 < positions.length →
      (tradingCosts cfg positions).getD (i + 1) 0
        = |positions.getD (i + 1) 0 - positions.getD i 0|
            * (cfg.transactionCostBps / 10000)) ∧
    (∀ i, i < (netReturns cfg prices positions).length →
      (equityOf cfg prices positions).getD i 0
        = cfg.initialCapital
            * (((netReturns cfg prices positions).take (i + 1)).map
                (fun r => 1 + r)).prod) := by
  refine ⟨?_, ?_, ?_, ?_, ?_⟩
  · intro hp hq
    obtain ⟨p, ps, rfl⟩ := List.exists_cons_of_ne_nil hp
    obtain ⟨q, qs, rfl⟩ := List.exists_cons_of_ne_nil hq
    simp [strategyReturns, shifted, returnsOf]
  · intro i h1 h2
    obtain ⟨p, ps, rfl⟩ := List.exists_cons_of_ne_nil
      (List.ne_nil_of_length_pos (by omega) : prices ≠ [])
    obtain ⟨q, qs, rfl⟩ := List.exists_cons_of_ne_nil
      (List.ne_nil_of_length_pos (by omega) : positions ≠ [])
    unfold strategyReturns
    rw [getD_zipWith _ _ _ (i + 1)
      (by rw [shifted_length]; exact h2)
      (by rw [returnsOf_length]; exact h1)]
    show (shifted (q :: qs)).getD (i + 1) 0 * (returnsOf (p :: ps)).getD (i + 1) 0 = _
    unfold shifted returnsOf
    rw [List.getD_cons_succ, List.getD_cons_succ, getD_dropLast _ i h2,
      pctChangeGo_getD p ps i (by simpa using h1)]
    rfl
  · intro hq
    obtain ⟨q, qs, rfl⟩ := List.exists_cons_of_ne_nil hq
    unfold tradingCosts
    rw [getD_map _ _ 0 (by rw [turnoverOf_length]; simp)]
    rfl
  · intro i h2
    obtain ⟨q, qs, rfl⟩ := List.exists_cons_of_ne_nil
      (List.ne_nil_of_length_pos (by omega) : positions ≠ [])
    unfold tradingCosts
    rw [getD_map _ _ (i + 1) (by rw [turnoverOf_length]; exact h2)]
    unfold turnoverOf
    rw [List.getD_cons_succ, turnoverGo_getD q qs i (by simpa using h2)]
    rfl
  · intro i hi
    unfold equityOf
    exact equityGo_getD cfg.initialCapital _ i hi

/-- Witness for C10 on concrete two-bar data. -/
theorem C10_one_bar_lag_witness :
    ((strategyReturns [100, 110] [1, 1]).getD 0 0 = 0) ∧
    ((strategyReturns [100, 110] [1, 1]).getD 1 0
      = ([(1 : ℚ), 1].getD 0 0) * (([(100 : ℚ), 110].getD 1 0) / ([(100 : ℚ), 110].getD 0 0) - 1)) ∧
    ((tradingCosts {} [1, 1]).getD 0 0
      = |([(1 : ℚ), 1].getD 0 0)| * (({} : PortCfg).transactionCostBps / 10000)) ∧
    ((tradingCosts {} [1, 1]).getD 1 0
      = |([(1 : ℚ), 1].getD 1 0) - ([(1 : ℚ), 1].getD 0 0)|
          * (({} : PortCfg).transactionCostBps / 10000)) ∧
    ((equityOf {} [100, 110] [1, 1]).getD 1 0
      = ({} : PortCfg).initialCapital
          * (((netReturns {} [100, 110] [1, 1]).take 2).map (fun r => 1 + r)).prod) :=
  ⟨(C10_one_bar_lag {} [100, 110] [1, 1]).1 (by decide) (by decide),
   (C10_one_bar_lag {} [100, 110] [1, 1]).2.1 0 (by decide) (by decide),
   (C10_one_bar_lag {} [100, 110] [1, 1]).2.2.1 (by decide),
   (C10_one_bar_lag {} [100, 110] [1, 1]).2.2.2.1 0 (by decide),
   (C10_one_bar_lag {} [100, 110] [1, 1]).2.2.2.2 1 (by decide)⟩

end IMS
